import Mathlib

/-!
# Verification of the LinkedIn skill extractor

A shallow embedding of `src/linkedin_extractor.py`:

* `_extract_skills_from_html` — parsing a snapshot (a list of `li` nodes
  with `span` children) into a deduplicated, ordered list of skill strings;
* `_scroll_until_loaded` — the scroll/stabilization loop, modelled over an
  abstract sequence of observed counts;
* the skills-URL normalization at the top of `scrape_skills`.

Python string primitives (`str.strip`, `str.lower`, `in`, `str.rstrip`,
`str.startswith`) are embedded as executable functions on `List Char`.
-/

namespace LinkedInExtractor

/-- Embedding of Python list/string prefix test on character lists. -/
def isPrefixOfChars : List Char → List Char → Bool
  | [], _ => true
  | _ :: _, [] => false
  | a :: as, b :: bs => a == b && isPrefixOfChars as bs

/-- Embedding of Python `pat in s` (substring test) on character lists. -/
def listHasSub : List Char → List Char → Bool
  | [], pat => pat.isEmpty
  | c :: rest, pat => isPrefixOfChars pat (c :: rest) || listHasSub rest pat

/-- Embedding of Python `pat in s` on strings. -/
def strHasSub (s pat : String) : Bool :=
  listHasSub s.data pat.data

/-- Embedding of Python `s.lower()` (per-character lowercasing). -/
def lowerStr (s : String) : String :=
  ⟨s.data.map Char.toLower⟩

/-- Strip leading and trailing whitespace from a character list. -/
def stripChars (l : List Char) : List Char :=
  ((l.dropWhile Char.isWhitespace).reverse.dropWhile Char.isWhitespace).reverse

/-- Embedding of Python `s.strip()` / BeautifulSoup `get_text(strip=True)`. -/
def pyStrip (s : String) : String :=
  ⟨stripChars s.data⟩

/-- Embedding of Python `s.startswith(pat)`. -/
def startsWithStr (s pat : String) : Bool :=
  isPrefixOfChars pat.data s.data

/-- Embedding of Python `s.rstrip("/")`: drop every trailing slash. -/
def rstripSlash (s : String) : String :=
  ⟨(s.data.reverse.dropWhile (· == '/')).reverse⟩

/-- A `span` node of the parsed snapshot: its tag, the value of its
`aria-hidden` attribute (if present) and its raw text content. -/
structure SpanNode where
  tag : String
  ariaHidden : Option String
  rawText : String
  deriving Repr, DecidableEq

/-- A list-item node of the parsed snapshot: its tag, its `id` attribute
(if present) and its `span` descendants. -/
structure LiNode where
  tag : String
  idAttr : Option String
  spans : List SpanNode
  deriving Repr, DecidableEq

/-- A parsed markup snapshot: the nodes `find_all` iterates over. -/
structure Snapshot where
  nodes : List LiNode
  deriving Repr, DecidableEq

/-- The `find_all("li", id=lambda x: x and "profilePagedListComponent" in x)`
element filter: a `li` whose `id` attribute is present, non-empty and
contains the fragment. -/
def isItemContainer (e : LiNode) : Bool :=
  e.tag == "li" &&
    (match e.idAttr with
     | none => false
     | some s => !(s == "") && strHasSub s "profilePagedListComponent")

/-- The `find_all("span", {"aria-hidden": "true"})` span filter. -/
def candidateSpans (e : LiNode) : List SpanNode :=
  e.spans.filter (fun sp => sp.tag == "span" && sp.ariaHidden == some "true")

/-- The candidate filter of `_extract_skills_from_html`:
`if text and "endorsement" not in text.lower()`. -/
def goodText (text : String) : Bool :=
  !(text == "") && !(strHasSub (lowerStr text) "endorsement")

/-- The inner `for span in spans` loop of `_extract_skills_from_html`:
strip each span's text, and on the first candidate that passes the filter
and is not already accumulated, append it and `break`. -/
def extractFromSpans (skills : List String) : List SpanNode → List String
  | [] => skills
  | sp :: rest =>
      if goodText (pyStrip sp.rawText) then
        if skills.contains (pyStrip sp.rawText) then extractFromSpans skills rest
        else skills ++ [pyStrip sp.rawText]
      else extractFromSpans skills rest

/-- The first span text of a container that passes the filter and is not yet
accumulated — the unique text `extractFromSpans` can append. -/
def firstNewSurvivor (skills : List String) : List SpanNode → Option String
  | [] => none
  | sp :: rest =>
      if goodText (pyStrip sp.rawText) && !(skills.contains (pyStrip sp.rawText)) then
        some (pyStrip sp.rawText)
      else firstNewSurvivor skills rest

/-- The first span text of a container that passes the filter, regardless of
whether it is already accumulated (the candidate singled out by the spec's
per-container rule). -/
def claimFirstSurvivor : List SpanNode → Option String
  | [] => none
  | sp :: rest =>
      if goodText (pyStrip sp.rawText) then some (pyStrip sp.rawText)
      else claimFirstSurvivor rest

/-- The extraction rule as the spec words it (§4.2 step 4): per container
take the first surviving candidate in document order, and record it only if
it is not already present; a container whose first surviving candidate is a
duplicate contributes nothing. Stated for comparison with
`extract_skills_from_html`. -/
def claimed_extract (soup : Snapshot) : List String :=
  (soup.nodes.filter isItemContainer).foldl
    (fun acc e =>
      match claimFirstSurvivor (candidateSpans e) with
      | none => acc
      | some t => if acc.contains t then acc else acc ++ [t]) []

/-- Processing of one `li` element in `_extract_skills_from_html`. -/
def processElem (skills : List String) (e : LiNode) : List String :=
  extractFromSpans skills (candidateSpans e)

/-- Embedding of `_extract_skills_from_html`. -/
def extract_skills_from_html (soup : Snapshot) : List String :=
  (soup.nodes.filter isItemContainer).foldl processElem []

/-- Build a span carrying the given raw text, as emitted by the skills view. -/
def mkSpan (t : String) : SpanNode :=
  ⟨"span", some "true", t⟩

/-- Build an item container whose spans carry the given texts. -/
def mkLi (ts : List String) : LiNode :=
  ⟨"li", some "profilePagedListComponent-17", ts.map mkSpan⟩

/-- Build a snapshot of containers, each given by its span texts. -/
def mkSnap (tss : List (List String)) : Snapshot :=
  ⟨tss.map mkLi⟩

/-- The working state of `_scroll_until_loaded`: the last recorded count
(`prev`), the consecutive no-growth rounds (`stable`), and the number of
scroll/observe steps performed so far (`steps`). -/
structure LoadState where
  prev : Nat
  stable : Nat
  steps : Nat
  deriving Repr, DecidableEq

/-- One iteration body of `_scroll_until_loaded`, given the count observed
after this step's scroll: on growth record the count and reset `stable`,
otherwise increment `stable`; either way one more step was taken. -/
def scrollStep (s : LoadState) (current : Nat) : LoadState :=
  if s.prev < current then ⟨current, 0, s.steps + 1⟩
  else ⟨s.prev, s.stable + 1, s.steps + 1⟩

/-- The `for i in range(...)` loop of `_scroll_until_loaded`, with the
remaining iteration budget explicit; `counts i` is the count observed after
the `(i+1)`-th scroll. After each step the loop breaks once `stable >= 2`. -/
def loopAux (counts : Nat → Nat) : Nat → LoadState → LoadState
  | 0, s => s
  | n + 1, s =>
      let s' := scrollStep s (counts s.steps)
      if 2 ≤ s'.stable then s' else loopAux counts n s'

/-- Embedding of `_scroll_until_loaded`: 20 iterations starting from
`prev = 0`, `stable = 0`, no steps taken. -/
def scroll_until_loaded (counts : Nat → Nat) : LoadState :=
  loopAux counts 20 ⟨0, 0, 0⟩

/-- The maximum of `0` and the first `n` observed counts. -/
def maxOver (counts : Nat → Nat) : Nat → Nat
  | 0 => 0
  | n + 1 => max (maxOver counts n) (counts n)

/-- The skills-URL normalization at the top of `scrape_skills`. -/
def skills_url (profile_url : String) : String :=
  if !(startsWithStr profile_url "http") then
    "https://www.linkedin.com/in/" ++ profile_url ++ "/details/skills/"
  else if strHasSub profile_url "/details/skills/" then
    profile_url
  else
    rstripSlash profile_url ++ "/details/skills/"

/-! ### Helper lemmas about the extraction pass -/

theorem firstNewSurvivor_spec (skills : List String) :
    ∀ (spans : List SpanNode) (t : String), firstNewSurvivor skills spans = some t →
      goodText t = true ∧ skills.contains t = false ∧ ∃ sp ∈ spans, t = pyStrip sp.rawText := by
  intro spans
  induction spans with
  | nil => intro t h; simp [firstNewSurvivor] at h
  | cons sp rest ih =>
      intro t h
      by_cases hc : (goodText (pyStrip sp.rawText) && !(skills.contains (pyStrip sp.rawText))) = true
      · rw [firstNewSurvivor, if_pos hc] at h
        rw [Bool.and_eq_true] at hc
        obtain ⟨hg, hm⟩ := hc
        cases h
        exact ⟨hg, by simpa using hm, sp, by simp, rfl⟩
      · rw [firstNewSurvivor, if_neg hc] at h
        obtain ⟨hg, hm, sp', hsp', ht⟩ := ih t h
        exact ⟨hg, hm, sp', by simp [hsp'], ht⟩

theorem extractFromSpans_eq (skills : List String) (spans : List SpanNode) :
    extractFromSpans skills spans = skills ++ (firstNewSurvivor skills spans).toList := by
  induction spans with
  | nil => simp [extractFromSpans, firstNewSurvivor]
  | cons sp rest ih =>
      by_cases hg : goodText (pyStrip sp.rawText) = true
      · by_cases hm : skills.contains (pyStrip sp.rawText) = true
        · have hm' : pyStrip sp.rawText ∈ skills := by simpa using hm
          rw [extractFromSpans, if_pos hg, if_pos hm,
            firstNewSurvivor, if_neg (by simp [hg, hm'])]
          exact ih
        · have hm' : pyStrip sp.rawText ∉ skills := by simpa using hm
          rw [extractFromSpans, if_pos hg, if_neg hm,
            firstNewSurvivor, if_pos (by simp [hg, hm'])]
          rfl
      · rw [extractFromSpans, if_neg hg, firstNewSurvivor, if_neg (by simp [hg])]
        exact ih

theorem processElem_eq (skills : List String) (e : LiNode) :
    processElem skills e = skills ++ (firstNewSurvivor skills (candidateSpans e)).toList :=
  extractFromSpans_eq skills (candidateSpans e)

theorem foldl_processElem_extend :
    ∀ (l : List LiNode) (acc : List String), ∃ t, l.foldl processElem acc = acc ++ t := by
  intro l
  induction l with
  | nil => exact fun acc => ⟨[], by simp⟩
  | cons e l ih =>
      intro acc
      obtain ⟨t, ht⟩ := ih (processElem acc e)
      exact ⟨(firstNewSurvivor acc (candidateSpans e)).toList ++ t, by
        simpa [processElem_eq, List.append_assoc] using ht⟩

theorem processElem_nodup (acc : List String) (e : LiNode) (h : acc.Nodup) :
    (processElem acc e).Nodup := by
  rw [processElem_eq]
  cases hf : firstNewSurvivor acc (candidateSpans e) with
  | none => simpa using h
  | some t =>
      have hm : acc.contains t = false := (firstNewSurvivor_spec acc _ t hf).2.1
      have hmem : t ∉ acc := by simpa [List.contains] using hm
      rw [List.nodup_append]
      refine ⟨h, List.nodup_singleton t, ?_⟩
      intro a ha hat
      have : a = t := by simpa using hat
      exact hmem (this ▸ ha)

theorem foldl_processElem_nodup :
    ∀ (l : List LiNode) (acc : List String), acc.Nodup → (l.foldl processElem acc).Nodup := by
  intro l
  induction l with
  | nil => exact fun acc h => h
  | cons e l ih => exact fun acc h => ih (processElem acc e) (processElem_nodup acc e h)

theorem mem_foldl_processElem :
    ∀ (l : List LiNode) (acc : List String) (r : String), r ∈ l.foldl processElem acc →
      r ∈ acc ∨ (goodText r = true ∧ ∃ raw, r = pyStrip raw) := by
  intro l
  induction l with
  | nil => exact fun acc r h => Or.inl h
  | cons e l ih =>
      intro acc r h
      rcases ih (processElem acc e) r h with hmem | hgood
      · rw [processElem_eq] at hmem
        rcases List.mem_append.1 hmem with hmem | hmem
        · exact Or.inl hmem
        · cases hf : firstNewSurvivor acc (candidateSpans e) with
          | none => rw [hf] at hmem; simp at hmem
          | some t =>
              rw [hf] at hmem
              obtain ⟨hg, -, sp, -, ht⟩ := firstNewSurvivor_spec acc _ t hf
              have : r = t := by simpa using hmem
              exact Or.inr ⟨this ▸ hg, sp.rawText, this ▸ ht⟩
      · exact Or.inr hgood

/-! ### Helper lemmas about whitespace stripping -/

theorem dropWhile_length_le {α : Type} (p : α → Bool) (l : List α) :
    (l.dropWhile p).length ≤ l.length := by
  induction l with
  | nil => simp
  | cons c t ih =>
      by_cases h : p c = true
      · rw [List.dropWhile_cons, if_pos h]
        exact Nat.le_succ_of_le ih
      · rw [List.dropWhile_cons, if_neg h]

theorem dropWhile_fix_head {α : Type} {p : α → Bool} {c : α} {t : List α}
    (h : List.dropWhile p (c :: t) = c :: t) : p c = false := by
  by_cases hc : p c = true
  · exfalso
    rw [List.dropWhile_cons, if_pos hc] at h
    have hle := dropWhile_length_le p t
    rw [h] at hle
    simp at hle
  · simpa using hc

theorem dropWhile_fix_append {α : Type} (p : α → Bool) :
    ∀ (u v : List α), List.dropWhile p (u ++ v) = u ++ v → List.dropWhile p u = u := by
  intro u v h
  cases u with
  | nil => simp
  | cons c u' =>
      have h' : List.dropWhile p (c :: (u' ++ v)) = c :: (u' ++ v) := h
      have hc : p c = false := dropWhile_fix_head h'
      rw [List.dropWhile_cons, if_neg (by simp [hc])]

theorem dropWhile_dropWhile {α : Type} (p : α → Bool) (l : List α) :
    (l.dropWhile p).dropWhile p = l.dropWhile p := by
  cases hl : l.dropWhile p with
  | nil => simp
  | cons c t =>
      have hc : p c = false := by
        have h := List.head?_dropWhile_not p l
        rw [hl] at h
        simpa using h
      rw [List.dropWhile_cons, if_neg (by simp [hc])]

theorem stripChars_idem (l : List Char) : stripChars (stripChars l) = stripChars l := by
  have hm := dropWhile_dropWhile Char.isWhitespace l
  unfold stripChars
  revert hm
  generalize l.dropWhile Char.isWhitespace = m
  intro hm
  have hsplit : m.reverse.takeWhile Char.isWhitespace ++ m.reverse.dropWhile Char.isWhitespace
      = m.reverse := List.takeWhile_append_dropWhile Char.isWhitespace m.reverse
  have hm2 : (m.reverse.dropWhile Char.isWhitespace).reverse
      ++ (m.reverse.takeWhile Char.isWhitespace).reverse = m := by
    rw [← List.reverse_append, hsplit, List.reverse_reverse]
  have h1 : List.dropWhile Char.isWhitespace (m.reverse.dropWhile Char.isWhitespace).reverse
      = (m.reverse.dropWhile Char.isWhitespace).reverse := by
    apply dropWhile_fix_append Char.isWhitespace _ (m.reverse.takeWhile Char.isWhitespace).reverse
    rw [hm2]
    exact hm
  rw [h1, List.reverse_reverse, dropWhile_dropWhile]

theorem pyStrip_idem (s : String) : pyStrip (pyStrip s) = pyStrip s :=
  congrArg String.mk (stripChars_idem s.data)

/-! ### Helper lemmas about the stabilization loop -/

theorem loopAux_growth_steps (counts : Nat → Nat) (h : ∀ i, counts i < counts (i + 1)) :
    ∀ (n : Nat) (s : LoadState), s.prev < counts s.steps →
      (loopAux counts n s).steps = s.steps + n := by
  intro n
  induction n with
  | zero => intro s _; rfl
  | succ n ih =>
      intro s hs
      have hstep : scrollStep s (counts s.steps) = ⟨counts s.steps, 0, s.steps + 1⟩ := by
        rw [scrollStep, if_pos hs]
      rw [loopAux, hstep]
      rw [if_neg (by simp)]
      have hnext : (⟨counts s.steps, 0, s.steps + 1⟩ : LoadState).prev
          < counts (⟨counts s.steps, 0, s.steps + 1⟩ : LoadState).steps := h s.steps
      rw [ih _ hnext]
      show s.steps + 1 + n = s.steps + (n + 1)
      omega

theorem loopAux_maxOver (counts : Nat → Nat) :
    ∀ (n : Nat) (s : LoadState), s.prev = maxOver counts s.steps →
      (loopAux counts n s).prev = maxOver counts (loopAux counts n s).steps := by
  intro n
  induction n with
  | zero => intro s hs; exact hs
  | succ n ih =>
      intro s hs
      have hinv : (scrollStep s (counts s.steps)).prev
          = maxOver counts (scrollStep s (counts s.steps)).steps := by
        rw [scrollStep]
        by_cases hg : s.prev < counts s.steps
        · rw [if_pos hg]
          show counts s.steps = maxOver counts (s.steps + 1)
          rw [maxOver, ← hs, Nat.max_eq_right (Nat.le_of_lt hg)]
        · rw [if_neg hg]
          show s.prev = maxOver counts (s.steps + 1)
          rw [maxOver, ← hs, Nat.max_eq_left (Nat.le_of_not_lt hg)]
      rw [loopAux]
      by_cases hb : 2 ≤ (scrollStep s (counts s.steps)).stable
      · rw [if_pos hb]; exact hinv
      · rw [if_neg hb]; exact ih _ hinv

/-! ### Helper lemmas about URL normalization -/

theorem isPrefixOfChars_refl : ∀ (l : List Char), isPrefixOfChars l l = true := by
  intro l
  induction l with
  | nil => rfl
  | cons c t ih => simp [isPrefixOfChars, ih]

theorem isPrefixOfChars_append_right :
    ∀ (pat l m : List Char), isPrefixOfChars pat l = true →
      isPrefixOfChars pat (l ++ m) = true := by
  intro pat
  induction pat with
  | nil => intro l m _; rfl
  | cons a p ih =>
      intro l m h
      cases l with
      | nil => simp [isPrefixOfChars] at h
      | cons b l' =>
          rw [isPrefixOfChars, Bool.and_eq_true] at h
          rw [List.cons_append, isPrefixOfChars, Bool.and_eq_true]
          exact ⟨h.1, ih l' m h.2⟩

theorem isPrefixOfChars_self_append (pat m : List Char) :
    isPrefixOfChars pat (pat ++ m) = true :=
  isPrefixOfChars_append_right pat pat m (isPrefixOfChars_refl pat)

theorem isPrefixOfChars_iff_append (pat l : List Char) :
    isPrefixOfChars pat l = true ↔ ∃ t, l = pat ++ t := by
  constructor
  · intro h
    induction pat generalizing l with
    | nil => exact ⟨l, rfl⟩
    | cons a p ih =>
        cases l with
        | nil => simp [isPrefixOfChars] at h
        | cons b l' =>
            rw [isPrefixOfChars, Bool.and_eq_true] at h
            obtain ⟨t, ht⟩ := ih l' h.2
            have hab : a = b := by simpa using h.1
            exact ⟨t, by rw [List.cons_append, ← ht, hab]⟩
  · intro ⟨t, ht⟩
    rw [ht]
    exact isPrefixOfChars_self_append pat t

theorem listHasSub_append_self :
    ∀ (a p : List Char), listHasSub (a ++ p) p = true := by
  intro a p
  induction a with
  | nil =>
      cases p with
      | nil => rfl
      | cons c r =>
          show listHasSub (c :: r) (c :: r) = true
          rw [listHasSub, isPrefixOfChars_refl]
          rfl
  | cons c a' ih =>
      rw [List.cons_append, listHasSub, ih, Bool.or_true]

theorem dropWhile_of_getLast_ne (pat : List Char) (hp : pat.getLast? ≠ some '/') :
    pat.reverse.dropWhile (· == '/') = pat.reverse := by
  cases hr : pat.reverse with
  | nil => rfl
  | cons c t =>
      have hc : c ≠ '/' := by
        intro hc
        apply hp
        rw [List.getLast?_eq_head?_reverse, hr, hc]
        rfl
      rw [List.dropWhile_cons, if_neg (by simp [hc])]

theorem rstrip_keeps_head (pat l : List Char) (hp : pat.getLast? ≠ some '/')
    (h : isPrefixOfChars pat l = true) :
    isPrefixOfChars pat ((l.reverse.dropWhile (· == '/')).reverse) = true := by
  obtain ⟨t, ht⟩ := (isPrefixOfChars_iff_append pat l).1 h
  subst ht
  rw [List.reverse_append, List.dropWhile_append]
  by_cases he : (t.reverse.dropWhile (· == '/')).isEmpty = true
  · rw [if_pos he, dropWhile_of_getLast_ne pat hp, List.reverse_reverse]
    exact isPrefixOfChars_refl pat

  · rw [if_neg he, List.reverse_append, List.reverse_reverse]
    exact isPrefixOfChars_self_append pat _

/-! ### Claim theorems -/

/-- C1 (counterexample): the claim says a container whose first surviving
candidate is already present contributes nothing. In the code the `break`
sits inside the `if text not in skills` branch, so such a container keeps
scanning and can still contribute a later candidate: with containers
`[["Python"], ["Python", "Go"]]` the second container's first surviving
candidate is `"Python"` (already present), yet it contributes `"Go"`;
under the claim's rule the output would be `["Python"]`. -/
theorem C1_counterexample :
    extract_skills_from_html (mkSnap [["Python"], ["Python", "Go"]]) = ["Python", "Go"] ∧
    claimFirstSurvivor (candidateSpans (mkLi ["Python", "Go"])) = some "Python" ∧
    claimed_extract (mkSnap [["Python"], ["Python", "Go"]]) = ["Python"] :=
  ⟨by decide, by decide, by decide⟩

/-- C1 (amended): each container contributes at most one new Record, namely
the first candidate in document order that survives the filter AND is not
already present in the accumulated Record sequence; a surviving candidate
that is already present is skipped without blocking later candidates of the
same container. In particular a container with three surviving candidates,
none already present, contributes exactly one Record (the first). -/
theorem C1_amended_one_per_container :
    (∀ (skills : List String) (e : LiNode),
      processElem skills e = skills ++ (firstNewSurvivor skills (candidateSpans e)).toList) ∧
    processElem [] (mkLi ["Rust", "OCaml", "Zig"]) = ["Rust"] :=
  ⟨fun skills e => processElem_eq skills e, by decide⟩

/-- C2: the extraction output never holds two equal strings, and processing
additional containers only appends records, so every Record coming from an
earlier container precedes every Record first contributed by a later
container. -/
theorem C2_unique_first_seen_order (nodes extra : List LiNode) :
    (extract_skills_from_html ⟨nodes ++ extra⟩).Nodup ∧
    ∃ t, extract_skills_from_html ⟨nodes ++ extra⟩ = extract_skills_from_html ⟨nodes⟩ ++ t := by
  constructor
  · exact foldl_processElem_nodup _ [] List.nodup_nil
  · show ∃ t, ((nodes ++ extra).filter isItemContainer).foldl processElem []
        = (nodes.filter isItemContainer).foldl processElem [] ++ t
    rw [List.filter_append, List.foldl_append]
    exact foldl_processElem_extend _ _

/-- C3 (counterexample): with containers `["Python", "Python (endorsed)",
"", "Go"]` the code yields `["Python", "Python (endorsed)", "Go"]`, not
`["Python", "Go"]` as claimed: `"endorsed"` does not contain the substring
`"endorsement"`, so the noise filter does not reject it, and it is not an
exact duplicate of `"Python"`. -/
theorem C3_counterexample :
    extract_skills_from_html (mkSnap [["Python"], ["Python (endorsed)"], [""], ["Go"]])
      = ["Python", "Python (endorsed)", "Go"] ∧
    extract_skills_from_html (mkSnap [["Python"], ["Python (endorsed)"], [""], ["Go"]])
      ≠ ["Python", "Go"] ∧
    strHasSub (lowerStr "Python (endorsed)") "endorsement" = false :=
  ⟨by decide, by decide, by decide⟩

/-- C3 (amended): with containers `["Python", "Python (endorsed)", "", "Go"]`
extraction yields `["Python", "Python (endorsed)", "Go"]` in that order (only
the empty string is dropped); a snapshot that actually realizes "one real
duplicate, one noise string, one empty", such as
`["Python", "Python", "Python · 3 endorsements", "", "Go"]`, yields
`["Python", "Go"]` in that order. -/
theorem C3_amended_end_to_end :
    extract_skills_from_html (mkSnap [["Python"], ["Python (endorsed)"], [""], ["Go"]])
      = ["Python", "Python (endorsed)", "Go"] ∧
    extract_skills_from_html
        (mkSnap [["Python"], ["Python"], ["Python · 3 endorsements"], [""], ["Go"]])
      = ["Python", "Go"] :=
  ⟨by decide, by decide⟩

/-- C4: no Record of the extraction output is empty or whitespace-only
(its whitespace-stripped form is non-empty), and no Record contains the
substring "endorsement" after lowercasing, so a candidate text containing
"endorsement" in any case never appears as a Record. -/
theorem C4_noise_filtering (soup : Snapshot) (r : String)
    (h : r ∈ extract_skills_from_html soup) :
    pyStrip r ≠ "" ∧ strHasSub (lowerStr r) "endorsement" = false := by
  rcases mem_foldl_processElem _ [] r h with hc | ⟨hg, raw, hraw⟩
  · cases hc
  · rw [goodText, Bool.and_eq_true] at hg
    have hr : pyStrip r = r := by rw [hraw]; exact pyStrip_idem raw
    have hne : r ≠ "" := by simpa using hg.1
    exact ⟨by rw [hr]; exact hne, by simpa using hg.2⟩

/-- C4 witness: the theorem applied to a concrete snapshot and record. -/
theorem C4_witness :
    "Python" ∈ extract_skills_from_html (mkSnap [["Python"]]) ∧
    (pyStrip "Python" ≠ "" ∧ strHasSub (lowerStr "Python") "endorsement" = false) :=
  ⟨by decide, C4_noise_filtering (mkSnap [["Python"]]) "Python" (by decide)⟩

/-- C9: every Record of the extraction output is whitespace-trimmed — each
candidate is stripped before filtering and recording, and stripping is
idempotent, so stripping a Record again changes nothing. -/
theorem C9_records_trimmed (soup : Snapshot) (r : String)
    (h : r ∈ extract_skills_from_html soup) : pyStrip r = r := by
  rcases mem_foldl_processElem _ [] r h with hc | ⟨-, raw, hraw⟩
  · cases hc
  · rw [hraw]; exact pyStrip_idem raw

/-- C9 witness: the theorem applied to a concrete snapshot whose raw span
text carries surrounding whitespace. -/
theorem C9_witness :
    "Python" ∈ extract_skills_from_html (mkSnap [["  Python  "]]) ∧
    pyStrip "Python" = "Python" :=
  ⟨by decide, C9_records_trimmed (mkSnap [["  Python  "]]) "Python" (by decide)⟩

/-- C5: each loop step with a strictly greater observed count records the
count and resets the stable counter to 0; each non-growing step increments
the stable counter; after each step the loop breaks exactly when the stable
counter has reached 2; and a single no-growth round followed by renewed
growth resets the counter to 0 and never terminates the loop. -/
theorem C5_stable_rounds_semantics :
    (∀ (s : LoadState) (c : Nat), s.prev < c → scrollStep s c = ⟨c, 0, s.steps + 1⟩) ∧
    (∀ (s : LoadState) (c : Nat), ¬ s.prev < c →
      scrollStep s c = ⟨s.prev, s.stable + 1, s.steps + 1⟩) ∧
    (∀ (f : Nat → Nat) (n : Nat) (s : LoadState),
      loopAux f (n + 1) s =
        if 2 ≤ (scrollStep s (f s.steps)).stable then scrollStep s (f s.steps)
        else loopAux f n (scrollStep s (f s.steps))) ∧
    (∀ (f : Nat → Nat) (n : Nat) (s : LoadState),
      s.stable = 0 → ¬ s.prev < f s.steps →
      (scrollStep s (f s.steps)).prev < f (s.steps + 1) →
      (scrollStep (scrollStep s (f s.steps)) (f (s.steps + 1))).stable = 0 ∧
      loopAux f (n + 2) s =
        loopAux f n (scrollStep (scrollStep s (f s.steps)) (f (s.steps + 1)))) := by
  refine ⟨?_, ?_, ?_, ?_⟩
  · intro s c h; rw [scrollStep, if_pos h]
  · intro s c h; rw [scrollStep, if_neg h]
  · intro f n s; rfl
  · intro f n s h0 hng hgr
    have h1 : scrollStep s (f s.steps) = ⟨s.prev, 1, s.steps + 1⟩ := by
      rw [scrollStep, if_neg hng, h0]
    have h2 : scrollStep (scrollStep s (f s.steps)) (f (s.steps + 1))
        = ⟨f (s.steps + 1), 0, s.steps + 2⟩ := by
      rw [h1] at hgr ⊢
      rw [scrollStep, if_pos hgr]
    refine ⟨by rw [h2], ?_⟩
    show (if 2 ≤ (scrollStep s (f s.steps)).stable then scrollStep s (f s.steps)
        else loopAux f (n + 1) (scrollStep s (f s.steps))) = _
    rw [h1]
    rw [if_neg (by simp)]
    show (if 2 ≤ (scrollStep (⟨s.prev, 1, s.steps + 1⟩ : LoadState)
            (f (⟨s.prev, 1, s.steps + 1⟩ : LoadState).steps)).stable
          then _ else _) = _
    have h2' : scrollStep (⟨s.prev, 1, s.steps + 1⟩ : LoadState) (f (s.steps + 1))
        = ⟨f (s.steps + 1), 0, s.steps + 2⟩ := by rw [← h1]; exact h2
    rw [show (⟨s.prev, 1, s.steps + 1⟩ : LoadState).steps = s.steps + 1 from rfl, h2']
    rw [if_neg (by simp)]

/-- C5 witness: the step equations and the plateau-then-resume rule applied
at concrete states and a concrete count sequence. -/
theorem C5_witness :
    scrollStep ⟨2, 0, 0⟩ 3 = ⟨3, 0, 1⟩ ∧
    scrollStep ⟨3, 0, 1⟩ 3 = ⟨3, 1, 2⟩ ∧
    ((scrollStep (scrollStep ⟨3, 0, 2⟩ 3) 4).stable = 0 ∧
      loopAux (fun i => i + 1) 7 ⟨3, 0, 2⟩ =
        loopAux (fun i => i + 1) 5 (scrollStep (scrollStep ⟨3, 0, 2⟩ 3) 4)) :=
  ⟨C5_stable_rounds_semantics.1 ⟨2, 0, 0⟩ 3 (by decide),
   C5_stable_rounds_semantics.2.1 ⟨3, 0, 1⟩ 3 (by decide),
   C5_stable_rounds_semantics.2.2.2 (fun i => i + 1) 5 ⟨3, 0, 2⟩ rfl (by decide) (by decide)⟩

/-- C6: with observed counts `[3, 5, 5, 5]` the loop ends after the fourth
observation with recorded count 5 and two consecutive stable rounds, having
performed 4 scroll steps — no more than 4 reveal calls. -/
theorem C6_termination_sample :
    scroll_until_loaded (fun i => if i = 0 then 3 else 5) = ⟨5, 2, 4⟩ ∧
    (scroll_until_loaded (fun i => if i = 0 then 3 else 5)).steps ≤ 4 :=
  ⟨by decide, by decide⟩

/-- C7: when every poll strictly increases the observed count, the loop
never reaches two stable rounds and performs exactly its budget of 20
scroll steps. -/
theorem C7_budget_cap (counts : Nat → Nat) (h : ∀ i, counts i < counts (i + 1)) :
    (scroll_until_loaded counts).steps = 20 := by
  show (loopAux counts (19 + 1) ⟨0, 0, 0⟩).steps = 20
  rw [loopAux]
  by_cases h0 : (0 : Nat) < counts 0
  · have hstep : scrollStep ⟨0, 0, 0⟩ (counts 0) = ⟨counts 0, 0, 1⟩ := by
      rw [scrollStep, if_pos h0]
    rw [show counts (⟨0, 0, 0⟩ : LoadState).steps = counts 0 from rfl, hstep,
      if_neg (by simp)]
    have := loopAux_growth_steps counts h 19 ⟨counts 0, 0, 1⟩ (h 0)
    rw [this]
  · have hstep : scrollStep ⟨0, 0, 0⟩ (counts 0) = ⟨0, 1, 1⟩ := by
      rw [scrollStep, if_neg h0]
    rw [show counts (⟨0, 0, 0⟩ : LoadState).steps = counts 0 from rfl, hstep,
      if_neg (by simp)]
    have hc0 : counts 0 = 0 := Nat.eq_zero_of_not_pos h0
    have hpos : (⟨0, 1, 1⟩ : LoadState).prev < counts (⟨0, 1, 1⟩ : LoadState).steps := by
      show 0 < counts 1
      have h01 : counts 0 < counts 1 := h 0
      omega
    have := loopAux_growth_steps counts h 19 ⟨0, 1, 1⟩ hpos
    rw [this]

/-- C7 witness: the budget cap applied to the concrete strictly increasing
count sequence `1, 2, 3, …`. -/
theorem C7_witness : (scroll_until_loaded (fun i => i + 1)).steps = 20 :=
  C7_budget_cap (fun i => i + 1) (fun i => Nat.lt_succ_self (i + 1))

/-- C10: a poll strictly below the recorded count leaves the recorded count
unchanged and is counted as a stable round; one step never decreases the
recorded count; and the loop's final recorded count equals the maximum of
the counts it observed. -/
theorem C10_recorded_count_monotone :
    (∀ (s : LoadState) (c : Nat), c < s.prev →
      scrollStep s c = ⟨s.prev, s.stable + 1, s.steps + 1⟩) ∧
    (∀ (s : LoadState) (c : Nat), s.prev ≤ (scrollStep s c).prev) ∧
    (∀ (counts : Nat → Nat),
      (scroll_until_loaded counts).prev
        = maxOver counts (scroll_until_loaded counts).steps) := by
  refine ⟨?_, ?_, ?_⟩
  · intro s c h
    rw [scrollStep, if_neg (by omega)]
  · intro s c
    rw [scrollStep]
    by_cases h : s.prev < c
    · rw [if_pos h]; exact Nat.le_of_lt h
    · rw [if_neg h]
  · intro counts
    exact loopAux_maxOver counts 20 ⟨0, 0, 0⟩ rfl

/-- C10 witness: the shrinking-poll equation applied at a concrete state. -/
theorem C10_witness : scrollStep ⟨5, 0, 3⟩ 2 = ⟨5, 1, 4⟩ :=
  C10_recorded_count_monotone.1 ⟨5, 0, 3⟩ 2 (by decide)

/-- C8: the skills-URL normalization maps a short handle `h` (not starting
with "http") to `https://www.linkedin.com/in/h/details/skills/`; leaves a
reference that starts with "http" and already contains `/details/skills/`
unchanged; otherwise strips trailing slashes and appends
`/details/skills/`. A short handle (without trailing slash, its expansion
free of the skills fragment) and its expanded profile location
`https://www.linkedin.com/in/h` normalize to the same URL, and
normalization is idempotent. -/
theorem C8_url_normalization :
    (∀ s : String, startsWithStr s "http" = false →
      skills_url s = "https://www.linkedin.com/in/" ++ s ++ "/details/skills/") ∧
    (∀ s : String, startsWithStr s "http" = true →
      strHasSub s "/details/skills/" = true → skills_url s = s) ∧
    (∀ s : String, startsWithStr s "http" = true →
      strHasSub s "/details/skills/" = false →
      skills_url s = rstripSlash s ++ "/details/skills/") ∧
    (∀ t : String, startsWithStr t "http" = false →
      strHasSub ("https://www.linkedin.com/in/" ++ t) "/details/skills/" = false →
      rstripSlash ("https://www.linkedin.com/in/" ++ t) = "https://www.linkedin.com/in/" ++ t →
      skills_url t = skills_url ("https://www.linkedin.com/in/" ++ t)) ∧
    (∀ s : String, skills_url (skills_url s) = skills_url s) := by
  have part1 : ∀ s : String, startsWithStr s "http" = false →
      skills_url s = "https://www.linkedin.com/in/" ++ s ++ "/details/skills/" := by
    intro s h
    rw [skills_url, if_pos (by simp [h])]
  have part2 : ∀ s : String, startsWithStr s "http" = true →
      strHasSub s "/details/skills/" = true → skills_url s = s := by
    intro s h1 h2
    rw [skills_url, if_neg (by simp [h1]), if_pos h2]
  have part3 : ∀ s : String, startsWithStr s "http" = true →
      strHasSub s "/details/skills/" = false →
      skills_url s = rstripSlash s ++ "/details/skills/" := by
    intro s h1 h2
    rw [skills_url, if_neg (by simp [h1]), if_neg (by simp [h2])]
  have hstart : ∀ t : String, startsWithStr ("https://www.linkedin.com/in/" ++ t) "http" = true := by
    intro t
    show isPrefixOfChars "http".data ("https://www.linkedin.com/in/" ++ t).data = true
    rw [String.data_append]
    exact isPrefixOfChars_append_right _ _ _ (by decide)
  refine ⟨part1, part2, part3, ?_, ?_⟩
  · intro t h1 h2 h3
    rw [part1 t h1, part3 _ (hstart t) h2, h3]
  · intro s
    by_cases h1 : startsWithStr s "http" = true
    · by_cases h2 : strHasSub s "/details/skills/" = true
      · rw [part2 s h1 h2]
        exact part2 s h1 h2
      · rw [part3 s h1 (by simpa using h2)]
        apply part2
        · show isPrefixOfChars "http".data (rstripSlash s ++ "/details/skills/").data = true
          rw [String.data_append]
          apply isPrefixOfChars_append_right
          show isPrefixOfChars "http".data ((s.data.reverse.dropWhile (· == '/')).reverse) = true
          exact rstrip_keeps_head "http".data s.data (by decide) h1
        · show listHasSub (rstripSlash s ++ "/details/skills/").data "/details/skills/".data = true
          rw [String.data_append]
          exact listHasSub_append_self _ _
    · rw [part1 s (by simpa using h1)]
      apply part2
      · show isPrefixOfChars "http".data
            (("https://www.linkedin.com/in/" ++ s ++ "/details/skills/")).data = true
        rw [String.data_append, String.data_append]
        exact isPrefixOfChars_append_right _ _ _
          (isPrefixOfChars_append_right _ _ _ (by decide))
      · show listHasSub ("https://www.linkedin.com/in/" ++ s ++ "/details/skills/").data
            "/details/skills/".data = true
        rw [String.data_append]
        exact listHasSub_append_self _ _

/-- C8 witness: the normalization cases and the handle/expanded-location
agreement at the concrete handle "kristian-julsgaard" and concrete URLs. -/
theorem C8_witness :
    skills_url "kristian-julsgaard"
      = "https://www.linkedin.com/in/kristian-julsgaard/details/skills/" ∧
    skills_url "https://www.linkedin.com/in/x/details/skills/"
      = "https://www.linkedin.com/in/x/details/skills/" ∧
    skills_url "https://www.linkedin.com/in/x/"
      = rstripSlash "https://www.linkedin.com/in/x/" ++ "/details/skills/" ∧
    skills_url "kristian-julsgaard"
      = skills_url ("https://www.linkedin.com/in/" ++ "kristian-julsgaard") ∧
    skills_url (skills_url "https://www.linkedin.com/in/x/")
      = skills_url "https://www.linkedin.com/in/x/" := by
  refine ⟨?_, ?_, ?_, ?_, ?_⟩
  · rw [C8_url_normalization.1 "kristian-julsgaard" (by decide)]
    decide
  · exact C8_url_normalization.2.1 "https://www.linkedin.com/in/x/details/skills/"
      (by decide) (by decide)
  · exact C8_url_normalization.2.2.1 "https://www.linkedin.com/in/x/"
      (by decide) (by decide)
  · exact C8_url_normalization.2.2.2.1 "kristian-julsgaard"
      (by decide) (by decide) (by decide)
  · exact C8_url_normalization.2.2.2.2 "https://www.linkedin.com/in/x/"

end LinkedInExtractor
